import Mathlib

/-!
Verification of the fragmented-placeholder reconstruction engine of a
docx-processing service. The definitions below are a shallow embedding of
`scripts/clean_docx_fragments.py` (functions `_normalize_jinja_curly`,
`_normalize_jinja_square`, `normalize_docx`) and of `app/main.py`
(function `_detect_tags`). Text is modelled as `List Char`, raw bytes as
`List Nat`, and the specific regular expressions used by the source are
embedded as deterministic scanners (for these particular patterns the
Python backtracking engine is deterministic: every alternation and every
greedy/lazy repetition admits exactly one viable parse, because each noise
unit starts with a character that can never begin the required
continuation).
-/

/-- The whitespace class of Python's `\s` (and `str.isspace`) for `str`
patterns, as used by the source regexes. -/
def isPySpace (c : Char) : Bool :=
  c.toNat = 32 || (9 ≤ c.toNat && c.toNat ≤ 13) || (28 ≤ c.toNat && c.toNat ≤ 31) ||
  c.toNat = 0x85 || c.toNat = 0xa0 || c.toNat = 0x1680 ||
  (0x2000 ≤ c.toNat && c.toNat ≤ 0x200a) || c.toNat = 0x2028 || c.toNat = 0x2029 ||
  c.toNat = 0x202f || c.toNat = 0x205f || c.toNat = 0x3000

/-- First character of the identifier grammar `[A-Za-z_]` of the source. -/
def isIdentStart (c : Char) : Bool :=
  (65 ≤ c.toNat && c.toNat ≤ 90) || (97 ≤ c.toNat && c.toNat ≤ 122) || c.toNat = 95

/-- Continuation character of the identifier grammar `[A-Za-z0-9_-]`. -/
def isIdentChar (c : Char) : Bool :=
  isIdentStart c || (48 ≤ c.toNat && c.toNat ≤ 57) || c.toNat = 45

/-- Success of `re.match(r"^([A-Za-z_][A-Za-z0-9_-]*)$", s)` (full match of
the variable-name grammar used by both reconstructors). -/
def isValidIdent : List Char → Bool
  | [] => false
  | c :: cs => isIdentStart c && cs.all isIdentChar

/-- One maximal run of the noise repetition `(?:<[^>]+>|\s)*` of the source
pattern: repeatedly consume either a whole inline tag `<[^>]+>` or a single
whitespace character.  Returns `(consumed, rest)`.  The fuel argument makes
the recursion structural; every step consumes at least one character, so
fuel equal to the input length is always sufficient. -/
def munchNoiseF : Nat → List Char → List Char × List Char
  | _, [] => ([], [])
  | 0, l => ([], l)
  | fuel+1, c :: cs =>
    if isPySpace c then
      let p := munchNoiseF fuel cs
      (c :: p.1, p.2)
    else if c = '<' then
      let body := cs.takeWhile (fun d => d ≠ '>')
      match cs.dropWhile (fun d => d ≠ '>') with
      | '>' :: rest2 =>
        if body = [] then ([], c :: cs)
        else
          let p := munchNoiseF fuel rest2
          (c :: (body ++ '>' :: p.1), p.2)
      | _ => ([], c :: cs)
    else ([], c :: cs)

/-- The closing window `\}(?:<[^>]+>|\s)*\}` (resp. with `]`) of the source
pattern, attempted at the head of the list.  Returns the consumed span and
the remainder. -/
def closerAt (cl : Char) : List Char → Option (List Char × List Char)
  | c :: cs =>
    if c = cl then
      let p := munchNoiseF cs.length cs
      match p.2 with
      | c2 :: rest => if c2 = cl then some (c :: (p.1 ++ [c2]), rest) else none
      | [] => none
    else none
  | [] => none

/-- The lazy interior `(.*?)` followed by the closing window: try interior
lengths in increasing order (Python's non-greedy semantics) and return
`(interior, closer-consumed, rest)` for the first position where the
closing window matches. -/
def findCloser (cl : Char) : List Char → Option (List Char × List Char × List Char)
  | [] => none
  | c :: cs =>
    match closerAt cl (c :: cs) with
    | some (k, r) => some ([], k, r)
    | none =>
      match findCloser cl cs with
      | some (i, k, r) => some (c :: i, k, r)
      | none => none

/-- One attempt of the whole source pattern
`\{(?:<[^>]+>|\s)*\{(.*?)(?:\}(?:<[^>]+>|\s)*\})` (resp. square variant) at
the head of the list.  Returns `(whole match, interior group, rest)`. -/
def matchPairAt (op cl : Char) (l : List Char) : Option (List Char × List Char × List Char) :=
  match l with
  | c :: cs =>
    if c = op then
      let p := munchNoiseF cs.length cs
      match p.2 with
      | c2 :: cs2 =>
        if c2 = op then
          match findCloser cl cs2 with
          | some (i, k2, rest) => some (c :: (p.1 ++ c2 :: (i ++ k2)), i, rest)
          | none => none
        else none
      | [] => none
    else none
  | [] => none

/-- Embedding of `re.sub(r"<[^>]+>", "", inner)`: left-to-right removal of every inline
tag shaped substring.  Fueled for structural recursion; fuel equal to the
input length is always sufficient. -/
def stripTagsF : Nat → List Char → List Char
  | _, [] => []
  | 0, l => l
  | fuel+1, c :: cs =>
    if c = '<' then
      let body := cs.takeWhile (fun d => d ≠ '>')
      match cs.dropWhile (fun d => d ≠ '>') with
      | '>' :: rest => if body = [] then c :: stripTagsF fuel cs else stripTagsF fuel rest
      | _ => c :: stripTagsF fuel cs
    else c :: stripTagsF fuel cs

/-- Embedding of `inner.replace("&lt;", "<")` (left-to-right, non-overlapping). -/
def decodeLt : List Char → List Char
  | '&' :: 'l' :: 't' :: ';' :: cs => '<' :: decodeLt cs
  | c :: cs => c :: decodeLt cs
  | [] => []

/-- Embedding of `inner.replace("&gt;", ">")`. -/
def decodeGt : List Char → List Char
  | '&' :: 'g' :: 't' :: ';' :: cs => '>' :: decodeGt cs
  | c :: cs => c :: decodeGt cs
  | [] => []

/-- Embedding of `inner.replace("&amp;", "&")`. -/
def decodeAmp : List Char → List Char
  | '&' :: 'a' :: 'm' :: 'p' :: ';' :: cs => '&' :: decodeAmp cs
  | c :: cs => c :: decodeAmp cs
  | [] => []

/-- Embedding of `re.sub(r"\s+", "", cleaned)`: removing every whitespace character. -/
def collapseWs (l : List Char) : List Char := l.filter (fun c => !isPySpace c)

/-- The cleaning pipeline applied to a captured interior, in source order:
strip inline tags, decode the three entities, collapse whitespace. -/
def cleanInner (inner : List Char) : List Char :=
  collapseWs (decodeAmp (decodeGt (decodeLt (stripTagsF inner.length inner))))

/-- The replacement callback (`repl_curly` / `repl_square`): if the cleaned
interior matches the identifier grammar, produce the canonical contiguous
placeholder, otherwise reproduce the whole matched span unchanged. -/
def replPair (op cl : Char) (whole inner : List Char) : List Char :=
  let cleaned := cleanInner inner
  if isValidIdent cleaned then op :: op :: (cleaned ++ [cl, cl]) else whole

/-- Embedding of `pattern.subn(repl, text)`: scan left to right; at each position either
apply the replacement callback to a match and continue after it, or copy
one character.  The returned count is the number of matches (Python counts
a substitution even when the callback returns the original span).  Fueled
for structural recursion; every step consumes at least one character, so
fuel equal to the input length is always sufficient. -/
def pairSubnF (op cl : Char) : Nat → List Char → List Char × Nat
  | _, [] => ([], 0)
  | 0, l => (l, 0)
  | fuel+1, c :: cs =>
    match matchPairAt op cl (c :: cs) with
    | some (whole, inner, rest) =>
      let p := pairSubnF op cl fuel rest
      (replPair op cl whole inner ++ p.1, p.2 + 1)
    | none =>
      let p := pairSubnF op cl fuel cs
      (c :: p.1, p.2)

/-- Function `_normalize_jinja_curly` of `scripts/clean_docx_fragments.py`. -/
def _normalize_jinja_curly (xml_text : List Char) : List Char × Nat :=
  pairSubnF '{' '}' xml_text.length xml_text

/-- Function `_normalize_jinja_square` of `scripts/clean_docx_fragments.py`. -/
def _normalize_jinja_square (xml_text : List Char) : List Char × Nat :=
  pairSubnF '[' ']' xml_text.length xml_text

/-- One entry of the zip container: a name, its archive metadata (opaque to
the engine, modelled as a number), and its raw decompressed bytes. -/
structure Entry where
  name : List Char
  meta : Nat
  data : List Nat
deriving DecidableEq

/-- Whether `p` is an initial segment of `s` (Python's `str.startswith`). -/
def leadsWith : List Char → List Char → Bool
  | [], _ => true
  | _ :: _, [] => false
  | p :: ps, c :: cs => p = c && leadsWith ps cs

/-- Whether `p` is a final segment of `s` (Python's `str.endswith`). -/
def endsIn (p s : List Char) : Bool := leadsWith p.reverse s.reverse

/-- Embedding of `item.filename.startswith('word/') and item.filename.endswith('.xml')`:
the qualifying-entry predicate shared by `normalize_docx` and
`_detect_tags`. -/
def isQualifying (name : List Char) : Bool :=
  leadsWith (String.toList "word/") name && endsIn (String.toList ".xml") name

/-- A UTF-8 continuation byte `0x80..0xBF`. -/
def isCont (b : Nat) : Bool := 0x80 ≤ b && b ≤ 0xBF

/-- Embedding of `bytes.decode('utf-8', 'ignore')`: incremental UTF-8 decoding where the
bytes of each ill-formed maximal subpart are dropped.  Fueled for
structural recursion; every step consumes at least one byte, so fuel equal
to the input length is always sufficient. -/
def utf8DecodeIgnoreF : Nat → List Nat → List Char
  | _, [] => []
  | 0, _ => []
  | fuel+1, b :: bs =>
    if b < 0x80 then Char.ofNat b :: utf8DecodeIgnoreF fuel bs
    else if 0xC2 ≤ b && b ≤ 0xDF then
      match bs with
      | b1 :: bs1 =>
        if isCont b1 then
          Char.ofNat ((b - 0xC0) * 64 + (b1 - 0x80)) :: utf8DecodeIgnoreF fuel bs1
        else utf8DecodeIgnoreF fuel bs
      | [] => []
    else if 0xE0 ≤ b && b ≤ 0xEF then
      match bs with
      | b1 :: bs1 =>
        if (b = 0xE0 && 0xA0 ≤ b1 && b1 ≤ 0xBF) ||
           (b = 0xED && 0x80 ≤ b1 && b1 ≤ 0x9F) ||
           (b ≠ 0xE0 && b ≠ 0xED && isCont b1) then
          match bs1 with
          | b2 :: bs2 =>
            if isCont b2 then
              Char.ofNat ((b - 0xE0) * 4096 + (b1 - 0x80) * 64 + (b2 - 0x80)) ::
                utf8DecodeIgnoreF fuel bs2
            else utf8DecodeIgnoreF fuel bs1
          | [] => []
        else utf8DecodeIgnoreF fuel bs
      | [] => []
    else if 0xF0 ≤ b && b ≤ 0xF4 then
      match bs with
      | b1 :: bs1 =>
        if (b = 0xF0 && 0x90 ≤ b1 && b1 ≤ 0xBF) ||
           (b = 0xF4 && 0x80 ≤ b1 && b1 ≤ 0x8F) ||
           (b ≠ 0xF0 && b ≠ 0xF4 && isCont b1) then
          match bs1 with
          | b2 :: bs2 =>
            if isCont b2 then
              match bs2 with
              | b3 :: bs3 =>
                if isCont b3 then
                  Char.ofNat ((b - 0xF0) * 262144 + (b1 - 0x80) * 4096 +
                      (b2 - 0x80) * 64 + (b3 - 0x80)) :: utf8DecodeIgnoreF fuel bs3
                else utf8DecodeIgnoreF fuel bs2
              | [] => []
            else utf8DecodeIgnoreF fuel bs1
          | [] => []
        else utf8DecodeIgnoreF fuel bs
      | [] => []
    else utf8DecodeIgnoreF fuel bs

/-- Embedding of `bytes.decode('utf-8', 'ignore')` with sufficient fuel. -/
def utf8DecodeIgnore (bs : List Nat) : List Char := utf8DecodeIgnoreF bs.length bs

/-- Embedding of `str.encode('utf-8')` for one character. -/
def utf8EncodeChar (c : Char) : List Nat :=
  let n := c.toNat
  if n < 0x80 then [n]
  else if n < 0x800 then [0xC0 + n / 64, 0x80 + n % 64]
  else if n < 0x10000 then [0xE0 + n / 4096, 0x80 + (n / 64) % 64, 0x80 + n % 64]
  else [0xF0 + n / 262144, 0x80 + (n / 4096) % 64, 0x80 + (n / 64) % 64, 0x80 + n % 64]

/-- Embedding of `str.encode('utf-8')`. -/
def utf8Encode (l : List Char) : List Nat := l.flatMap utf8EncodeChar

/-- The per-entry body of the loop in `normalize_docx`: a qualifying entry
is leniently decoded, rewritten by the curly family (and the square family
when enabled) and re-encoded; any other entry is kept as is.  Returns the
new entry and the count contributed to the total.  (The source wraps this
in `try/except`, but none of the involved operations can raise: decoding
uses the `'ignore'` error handler and the rewrite is pure.) -/
def processEntry (enable_square : Bool) (e : Entry) : Entry × Nat :=
  if isQualifying e.name then
    let text := utf8DecodeIgnore e.data
    let p1 := _normalize_jinja_curly text
    let p2 := if enable_square then _normalize_jinja_square p1.1 else (p1.1, 0)
    ({ e with data := utf8Encode p2.1 }, p1.2 + p2.2)
  else (e, 0)

/-- The entry loop of `normalize_docx` over an already-opened container:
entries are written to the destination in source order and the per-entry
counts accumulate into the total. -/
def normalize_docx_entries (enable_square : Bool) : List Entry → List Entry × Nat
  | [] => ([], 0)
  | e :: es =>
    let p := processEntry enable_square e
    let q := normalize_docx_entries enable_square es
    (p.1 :: q.1, p.2 + q.2)

/-- The error classes of the container pass. -/
inductive ContainerError where
  | fileNotFound
deriving DecidableEq

/-- Function `normalize_docx` of `scripts/clean_docx_fragments.py`: the source
container is `some entries` when `input_path` exists and `none` otherwise;
a missing source raises `FileNotFoundError` before any destination output
is created, so the destination container and total count exist only in the
success case. -/
def normalize_docx (source : Option (List Entry)) (enable_square : Bool) :
    Except ContainerError (List Entry × Nat) :=
  match source with
  | none => .error .fileNotFound
  | some entries => .ok (normalize_docx_entries enable_square entries)

/-- One attempt of the census pattern
`\{\{\s*([A-Za-z_][A-Za-z0-9_-]*)\s*\}\}` of `_detect_tags` at the head of
the list, returning the captured variable name and the remainder after the
match.  (For this pattern the backtracking engine is deterministic:
whitespace, identifier characters and the closing braces are disjoint, so
greedy repetition with backtracking equals maximal munch.) -/
def detectMatchAt : List Char → Option (List Char × List Char)
  | '{' :: '{' :: cs =>
    match cs.dropWhile isPySpace with
    | c :: cs2 =>
      if isIdentStart c then
        let body := cs2.takeWhile isIdentChar
        match (cs2.dropWhile isIdentChar).dropWhile isPySpace with
        | '}' :: '}' :: rest => some (c :: body, rest)
        | _ => none
      else none
    | [] => none
  | _ => none

/-- The `re.finditer` loop of `_detect_tags` within one entry, threading
the accumulated first-seen list (`found`; the source's `seen` set always
holds exactly the elements of `found`).  Fueled for structural recursion;
every step consumes at least one character, so fuel equal to the input
length is always sufficient. -/
def collectTagsF (fuel : Nat) (found : List (List Char)) (l : List Char) :
    List (List Char) :=
  match fuel, l with
  | _, [] => found
  | 0, _ => found
  | fuel+1, c :: cs =>
    match detectMatchAt (c :: cs) with
    | some (v, rest) =>
      collectTagsF fuel (if v ∈ found then found else found ++ [v]) rest
    | none => collectTagsF fuel found cs

/-- The entry loop of `_detect_tags` over an already-opened container,
threading the shared first-seen accumulator through the qualifying
entries in iteration order. -/
def detectEntriesLoop (found : List (List Char)) : List Entry → List (List Char)
  | [] => found
  | e :: es =>
    detectEntriesLoop
      (if isQualifying e.name then
        let text := utf8DecodeIgnore e.data
        collectTagsF text.length found text
      else found)
      es

/-- The entry loop of `_detect_tags` over an already-opened container. -/
def detect_tags_entries (entries : List Entry) : List (List Char) :=
  detectEntriesLoop [] entries

/-- Function `_detect_tags` of `app/main.py`: the whole body runs under a
`try/except` that turns any internal error (nonexistent path, unreadable
or non-zip file) into a logged warning and an empty result; a readable
container is `.ok entries`, any failure to open or read it is
`.error msg`. -/
def _detect_tags (source : Except (List Char) (List Entry)) : List (List Char) :=
  match source with
  | .error _ => []
  | .ok entries => detect_tags_entries entries

/-- Test whether `pat` occurs as a contiguous substring of the text. -/
def containsSeq (pat : List Char) : List Char → Bool
  | [] => pat = ([] : List Char)
  | c :: cs => leadsWith pat (c :: cs) || containsSeq pat cs

lemma collectTagsF_nodup (fuel : Nat) :
    ∀ found l, found.Nodup → (collectTagsF fuel found l).Nodup := by
  induction fuel with
  | zero =>
    intro found l h
    cases l <;> simpa [collectTagsF]
  | succ n ih =>
    intro found l h
    cases l with
    | nil => simpa [collectTagsF]
    | cons c cs =>
      cases hm : detectMatchAt (c :: cs) with
      | none =>
        simpa [collectTagsF, hm] using ih found cs h
      | some p =>
        obtain ⟨v, rest⟩ := p
        by_cases hv : v ∈ found
        · simpa [collectTagsF, hm, hv] using ih found rest h
        · have hn : (found ++ [v]).Nodup :=
            List.nodup_append.mpr
              ⟨h, List.nodup_singleton v, by simpa [List.disjoint_singleton] using hv⟩
          simpa [collectTagsF, hm, hv] using ih (found ++ [v]) rest hn

lemma detectEntriesLoop_nodup :
    ∀ entries found, found.Nodup → (detectEntriesLoop found entries).Nodup := by
  intro entries
  induction entries with
  | nil => intro found h; simpa [detectEntriesLoop]
  | cons e es ih =>
    intro found h
    rw [detectEntriesLoop]
    apply ih
    by_cases hq : isQualifying e.name
    · simpa [hq] using collectTagsF_nodup _ found _ h
    · simpa [hq]

lemma pairSubnF_count_zero (op cl : Char) :
    ∀ fuel l, (pairSubnF op cl fuel l).2 = 0 → (pairSubnF op cl fuel l).1 = l := by
  intro fuel
  induction fuel with
  | zero =>
    intro l h
    cases l <;> simp [pairSubnF]
  | succ n ih =>
    intro l h
    cases l with
    | nil => simp [pairSubnF]
    | cons c cs =>
      cases hm : matchPairAt op cl (c :: cs) with
      | none =>
        rw [pairSubnF, hm] at h ⊢
        simpa using ih cs (by simpa using h)
      | some t =>
        obtain ⟨whole, inner, rest⟩ := t
        rw [pairSubnF, hm] at h
        simp at h

/-- C1: the claim asserts that a matched candidate whose cleaned interior
fails the identifier grammar does not increment the count, and in
particular that the curly reconstructor returns count 0 on `{{1name}}`.
The code counts every match of the delimiter-window pattern (Python's
`subn` counts a substitution even when the callback reproduces the
original span), so on `{{1name}}` the text is unchanged but the count
is 1, not 0. -/
theorem curly_invalid_interior_still_counted_cex :
    ¬ (_normalize_jinja_curly (String.toList "\x7b\x7b1name\x7d\x7d") =
        (String.toList "\x7b\x7b1name\x7d\x7d", 0)) := by decide

/-- C1 (amended): a matched candidate whose cleaned interior fails the
identifier grammar leaves its span unchanged but still increments the
returned count: both family reconstructors return the unchanged text with
count 1 on `{{1name}}` / `[[1name]]`. -/
theorem curly_invalid_interior_unchanged_count_one :
    _normalize_jinja_curly (String.toList "\x7b\x7b1name\x7d\x7d") =
      (String.toList "\x7b\x7b1name\x7d\x7d", 1) ∧
    _normalize_jinja_square (String.toList "[[1name]]") =
      (String.toList "[[1name]]", 1) := by decide

/-- C5: on a textual part consisting of `{` + inline tag + `{` + inline tag
+ `name` + inline tag + `}` + inline tag + `}`, the curly reconstructor
replaces the whole matched span with the contiguous `{{name}}` and returns
count 1. -/
theorem curly_fragmentation_repair :
    _normalize_jinja_curly (String.toList "\x7b<w:r>\x7b<w:t>name</w:t>\x7d</w:r>\x7d") =
      (String.toList "\x7b\x7bname\x7d\x7d", 1) := by decide

/-- C7: when the source container path does not exist, `normalize_docx`
fails with the NotFound error class immediately, and no destination
container (not even a partial one) is produced: the destination and total
exist only in the success case of the result. -/
theorem normalize_docx_missing_source_not_found (enable_square : Bool) :
    normalize_docx none enable_square = .error ContainerError.fileNotFound := rfl

/-- C8: `_detect_tags` never raises to its caller: any internal error while
opening or reading the container (nonexistent path, unreadable or non-zip
file) yields an empty list, and all per-entry processing in the embedding
is total (decoding uses the lenient error handler). -/
theorem detect_tags_internal_error_empty (err : List Char) :
    _detect_tags (.error err) = [] := rfl

/-- C2: the claim asserts that a qualifying entry whose bytes are not valid
UTF-8 is written byte-identical to the source.  The code decodes with the
`'ignore'` error handler, which never fails and instead drops the invalid
bytes, so the entry is re-encoded from the lossily decoded text: on a
qualifying entry with the single byte `0xFF` the output data is empty, not
`[0xFF]`. -/
theorem normalize_docx_invalid_utf8_not_byte_identical_cex :
    ¬ ((normalize_docx_entries false
          [⟨String.toList "word/document.xml", 7, [0xFF]⟩]).1 =
        [⟨String.toList "word/document.xml", 7, [0xFF]⟩]) := by decide

/-- C2 (amended): a qualifying entry whose raw bytes are not valid UTF-8 is
decoded leniently (invalid bytes dropped) and re-encoded rather than passed
through byte-identical; this never aborts the pass, the entry contributes
only the count of its own (lossily decoded) text, and sibling qualifying
entries with valid fragmented placeholders are still repaired. -/
theorem normalize_docx_invalid_utf8_lenient_fault_isolation :
    normalize_docx (some
        [⟨String.toList "word/a.xml", 7, [0xFF]⟩,
         ⟨String.toList "word/b.xml", 8,
          utf8Encode (String.toList "\x7b<w:r>\x7b<w:t>name</w:t>\x7d</w:r>\x7d")⟩])
      false =
    .ok ([⟨String.toList "word/a.xml", 7, []⟩,
          ⟨String.toList "word/b.xml", 8,
           utf8Encode (String.toList "\x7b\x7bname\x7d\x7d")⟩], 1) := by
  unfold normalize_docx
  exact congrArg Except.ok (by decide)

/-- C9: the list returned by `_detect_tags` is deduplicated (no name occurs
twice, for every container) and in first-seen order across qualifying
entries and matches: on a normalized container containing `{{a}}`, `{{b}}`,
`{{a}}` in that textual order the result is exactly `["a", "b"]`. -/
theorem detect_tags_dedup_first_seen :
    (∀ entries, (detect_tags_entries entries).Nodup) ∧
    _detect_tags (.ok
        [⟨String.toList "word/document.xml", 0,
          utf8Encode (String.toList "\x7b\x7ba\x7d\x7d x \x7b\x7bb\x7d\x7d y \x7b\x7ba\x7d\x7d")⟩]) =
      [String.toList "a", String.toList "b"] := by
  refine ⟨fun entries => detectEntriesLoop_nodup entries [] (by simp), ?_⟩
  decide

/-- C10: for either delimiter family, a returned count of 0 implies the
returned text is character-for-character the input. -/
theorem reconstruct_count_zero_text_unchanged :
    (∀ s, (_normalize_jinja_curly s).2 = 0 → (_normalize_jinja_curly s).1 = s) ∧
    (∀ s, (_normalize_jinja_square s).2 = 0 → (_normalize_jinja_square s).1 = s) :=
  ⟨fun s => pairSubnF_count_zero '{' '}' s.length s,
   fun s => pairSubnF_count_zero '[' ']' s.length s⟩

/-- Witness for C10 at a concrete input with zero matches. -/
theorem reconstruct_count_zero_text_unchanged_witness :
    (_normalize_jinja_curly (String.toList "plain text")).1 = String.toList "plain text" ∧
    (_normalize_jinja_square (String.toList "plain text")).1 = String.toList "plain text" :=
  ⟨reconstruct_count_zero_text_unchanged.1 _ (by decide),
   reconstruct_count_zero_text_unchanged.2 _ (by decide)⟩

lemma normalize_docx_entries_fst (sq : Bool) :
    ∀ entries, (normalize_docx_entries sq entries).1 =
      entries.map (fun e => (processEntry sq e).1) := by
  intro entries
  induction entries with
  | nil => rfl
  | cons e es ih => simp [normalize_docx_entries, ih]

lemma processEntry_name_meta (sq : Bool) (e : Entry) :
    (processEntry sq e).1.name = e.name ∧ (processEntry sq e).1.meta = e.meta := by
  unfold processEntry
  split <;> exact ⟨rfl, rfl⟩

lemma processEntry_nonqualifying (sq : Bool) (e : Entry)
    (h : isQualifying e.name = false) : processEntry sq e = (e, 0) := by
  simp [processEntry, h]

/-- C6: `normalize_docx` preserves entry order and entry identity (name and
archive metadata) for all entries of the source container, and every
non-qualifying entry appears in the destination with identical bytes. -/
theorem normalize_docx_frame_preservation (entries : List Entry) (enable_square : Bool) :
    normalize_docx (some entries) enable_square =
      .ok (normalize_docx_entries enable_square entries) ∧
    (normalize_docx_entries enable_square entries).1.map (fun e => (e.name, e.meta)) =
      entries.map (fun e => (e.name, e.meta)) ∧
    ∀ i (hi : i < entries.length)
      (ho : i < (normalize_docx_entries enable_square entries).1.length),
      isQualifying (entries.get ⟨i, hi⟩).name = false →
      (normalize_docx_entries enable_square entries).1.get ⟨i, ho⟩ = entries.get ⟨i, hi⟩ := by
  refine ⟨rfl, ?_, ?_⟩
  · rw [normalize_docx_entries_fst, List.map_map]
    exact List.map_congr_left fun e _ => by
      have h := processEntry_name_meta enable_square e
      simp [h.1, h.2]
  · intro i hi ho h
    have hf := normalize_docx_entries_fst enable_square entries
    simp only [List.get_eq_getElem] at h ⊢
    simp only [hf, List.getElem_map]
    rw [processEntry_nonqualifying enable_square _ h]

/-- Witness for C6 on a concrete container with a non-qualifying entry. -/
theorem normalize_docx_frame_preservation_witness :
    (normalize_docx_entries true
        [⟨String.toList "word/media/image1.png", 5, [1, 2, 3]⟩]).1.get
      ⟨0, by decide⟩ = ⟨String.toList "word/media/image1.png", 5, [1, 2, 3]⟩ :=
  (normalize_docx_frame_preservation
      [⟨String.toList "word/media/image1.png", 5, [1, 2, 3]⟩] true).2.2
    0 (by decide) (by decide) (by decide)

/-- C4: the claim asserts that `_detect_tags` reports a name only where the
text contains the exact contiguous form (open-char twice, identifier,
close-char twice, with no intervening characters of any kind).  The census
regex tolerates optional whitespace between the delimiters and the
identifier (`\s*` on both sides), so `{{ name }}` is reported as `name`
although the text nowhere contains the contiguous `{{name}}`. -/
theorem detect_tags_whitespace_tolerated_cex :
    _detect_tags (.ok
        [⟨String.toList "word/document.xml", 0,
          utf8Encode (String.toList "\x7b\x7b name \x7d\x7d")⟩]) =
      [String.toList "name"] ∧
    containsSeq (String.toList "\x7b\x7bname\x7d\x7d")
      (String.toList "\x7b\x7b name \x7d\x7d") = false := by decide

/-- C4 (amended): the census scanner reports a variable name exactly at
spans of the form open-char twice, optional whitespace, identifier,
optional whitespace, close-char twice — whitespace (but no markup or other
characters) may intervene between the delimiters and the identifier.
Soundness direction: every successful match decomposes the text that way
and the reported name satisfies the identifier grammar. -/
theorem detect_tags_matches_are_placeholder_spans :
    ∀ l v r, detectMatchAt l = some (v, r) →
      isValidIdent v = true ∧
      ∃ w1 w2, w1.all isPySpace = true ∧ w2.all isPySpace = true ∧
        l = '{' :: '{' :: (w1 ++ (v ++ (w2 ++ '}' :: '}' :: r))) := by
  intro l v r h
  rw [detectMatchAt.eq_def] at h
  split at h
  next cs =>
    split at h
    next c cs2 heq =>
      split at h
      next hs =>
        split at h
        next rest heq2 =>
          obtain ⟨hv, hr⟩ : c :: cs2.takeWhile isIdentChar = v ∧ rest = r := by
            have hinj := Option.some.inj h
            exact ⟨congrArg Prod.fst hinj, congrArg Prod.snd hinj⟩
          refine ⟨?_, cs.takeWhile isPySpace,
            (cs2.dropWhile isIdentChar).takeWhile isPySpace, ?_, ?_, ?_⟩
          · rw [← hv]
            simp only [isValidIdent, hs, Bool.true_and]
            exact List.all_eq_true.mpr fun x hx => List.mem_takeWhile_imp hx
          · exact List.all_eq_true.mpr fun x hx => List.mem_takeWhile_imp hx
          · exact List.all_eq_true.mpr fun x hx => List.mem_takeWhile_imp hx
          · have h1 : cs = cs.takeWhile isPySpace ++ (c :: cs2) := by
              conv_lhs => rw [← List.takeWhile_append_dropWhile (p := isPySpace) (l := cs)]
              rw [heq]
            have h2 : cs2 = cs2.takeWhile isIdentChar ++ cs2.dropWhile isIdentChar :=
              (List.takeWhile_append_dropWhile isIdentChar cs2).symm
            have h3 : cs2.dropWhile isIdentChar =
                (cs2.dropWhile isIdentChar).takeWhile isPySpace ++ ('}' :: '}' :: rest) := by
              conv_lhs => rw [← List.takeWhile_append_dropWhile (p := isPySpace)
                (l := cs2.dropWhile isIdentChar)]
              rw [heq2]
            rw [← hv, ← hr]
            conv_lhs => rw [h1]
            conv_lhs => rw [h2, h3]
            simp
        next => simp at h
      next => simp at h
    next => simp at h
  next => simp at h

/-- Witness for C4 (amended) at the concrete text with interior spaces. -/
theorem detect_tags_matches_are_placeholder_spans_witness :
    isValidIdent (String.toList "name") = true ∧
    ∃ w1 w2, w1.all isPySpace = true ∧ w2.all isPySpace = true ∧
      String.toList "\x7b\x7b name \x7d\x7d" =
        '{' :: '{' :: (w1 ++ (String.toList "name" ++ (w2 ++ '}' :: '}' :: ([] : List Char)))) :=
  detect_tags_matches_are_placeholder_spans (String.toList "\x7b\x7b name \x7d\x7d")
    (String.toList "name") [] (by decide)

lemma identChar_ne (c x : Char) (h : isIdentChar c = true)
    (hx : isIdentChar x = false) : c ≠ x := by
  intro he
  rw [he, hx] at h
  simp at h

lemma identChar_not_space (c : Char) (h : isIdentChar c = true) :
    isPySpace c = false := by
  cases hsp : isPySpace c with
  | false => rfl
  | true =>
    exfalso
    simp only [isPySpace, Bool.or_eq_true, Bool.and_eq_true, decide_eq_true_eq] at hsp
    simp only [isIdentChar, isIdentStart, Bool.or_eq_true, Bool.and_eq_true,
      decide_eq_true_eq] at h
    omega

lemma validIdent_all (id : List Char) (h : isValidIdent id = true) :
    ∀ c ∈ id, isIdentChar c = true := by
  cases id with
  | nil => simp [isValidIdent] at h
  | cons c cs =>
    simp only [isValidIdent, Bool.and_eq_true] at h
    intro x hx
    rcases List.mem_cons.mp hx with h1 | h2
    · subst h1
      simp [isIdentChar, h.1]
    · exact (List.all_eq_true.mp h.2) x h2

lemma munchNoiseF_stop (f : Nat) (c : Char) (cs : List Char)
    (h1 : isPySpace c = false) (h2 : c ≠ '<') :
    munchNoiseF (f+1) (c :: cs) = ([], c :: cs) := by
  simp [munchNoiseF, h1, h2]

lemma closerAt_ne (cl c : Char) (cs : List Char) (h : c ≠ cl) :
    closerAt cl (c :: cs) = none := by
  simp [closerAt, h]

lemma closerAt_pair (cl : Char) (rest : List Char)
    (h1 : isPySpace cl = false) (h2 : cl ≠ '<') :
    closerAt cl (cl :: cl :: rest) = some ([cl, cl], rest) := by
  have hm := munchNoiseF_stop rest.length cl rest h1 h2
  simp [closerAt, hm]

lemma findCloser_ident (cl : Char) (h1 : isPySpace cl = false) (h2 : cl ≠ '<')
    (hclid : isIdentChar cl = false) :
    ∀ id, (∀ c ∈ id, isIdentChar c = true) →
      findCloser cl (id ++ [cl, cl]) = some (id, [cl, cl], []) := by
  intro id
  induction id with
  | nil =>
    intro _
    have hc := closerAt_pair cl [] h1 h2
    simp [findCloser, hc]
  | cons c cs ih =>
    intro h
    have hcne : c ≠ cl := identChar_ne c cl (h c (by simp)) hclid
    have hca := closerAt_ne cl c (cs ++ [cl, cl]) hcne
    have ihh := ih fun x hx => h x (by simp [hx])
    simp [findCloser, hca, ihh]

lemma matchPairAt_contiguous (op cl : Char) (id : List Char)
    (hop1 : isPySpace op = false) (hop2 : op ≠ '<')
    (hcl1 : isPySpace cl = false) (hcl2 : cl ≠ '<') (hclid : isIdentChar cl = false)
    (hid : ∀ c ∈ id, isIdentChar c = true) :
    matchPairAt op cl (op :: op :: (id ++ [cl, cl])) =
      some (op :: op :: (id ++ [cl, cl]), id, []) := by
  have hm := munchNoiseF_stop (id.length + 2) op (id ++ [cl, cl]) hop1 hop2
  have hf := findCloser_ident cl hcl1 hcl2 hclid id hid
  simp [matchPairAt, hm, hf]

lemma stripTagsF_no_tag : ∀ (l : List Char), (∀ c ∈ l, c ≠ '<') →
    ∀ f, stripTagsF f l = l := by
  intro l
  induction l with
  | nil =>
    intro _ f
    cases f <;> rfl
  | cons c cs ih =>
    intro h f
    cases f with
    | zero => rfl
    | succ n =>
      have hc : c ≠ '<' := h c (by simp)
      simp [stripTagsF, hc, ih (fun x hx => h x (by simp [hx])) n]

lemma decodeLt_id : ∀ (l : List Char), (∀ c ∈ l, c ≠ '&') → decodeLt l = l := by
  intro l
  induction l with
  | nil => intro _; rfl
  | cons c cs ih =>
    intro h
    have hc : c ≠ '&' := h c (by simp)
    have ihh := ih fun x hx => h x (by simp [hx])
    rw [decodeLt.eq_def]
    split
    next heq =>
      injection heq with h1 _
      exact absurd h1 hc
    next c2 cs2 heq =>
      injection heq with h1 h2
      subst h1
      subst h2
      rw [ihh]
    next x heq => simp at heq

lemma decodeGt_id : ∀ (l : List Char), (∀ c ∈ l, c ≠ '&') → decodeGt l = l := by
  intro l
  induction l with
  | nil => intro _; rfl
  | cons c cs ih =>
    intro h
    have hc : c ≠ '&' := h c (by simp)
    have ihh := ih fun x hx => h x (by simp [hx])
    rw [decodeGt.eq_def]
    split
    next heq =>
      injection heq with h1 _
      exact absurd h1 hc
    next c2 cs2 heq =>
      injection heq with h1 h2
      subst h1
      subst h2
      rw [ihh]
    next x heq => simp at heq

lemma decodeAmp_id : ∀ (l : List Char), (∀ c ∈ l, c ≠ '&') → decodeAmp l = l := by
  intro l
  induction l with
  | nil => intro _; rfl
  | cons c cs ih =>
    intro h
    have hc : c ≠ '&' := h c (by simp)
    have ihh := ih fun x hx => h x (by simp [hx])
    rw [decodeAmp.eq_def]
    split
    next heq =>
      injection heq with h1 _
      exact absurd h1 hc
    next c2 cs2 heq =>
      injection heq with h1 h2
      subst h1
      subst h2
      rw [ihh]
    next x heq => simp at heq

lemma collapseWs_id (l : List Char) (h : ∀ c ∈ l, isPySpace c = false) :
    collapseWs l = l :=
  List.filter_eq_self.mpr fun c hc => by simp [h c hc]

lemma cleanInner_ident (id : List Char) (hid : ∀ c ∈ id, isIdentChar c = true) :
    cleanInner id = id := by
  have hamp : ∀ c ∈ id, c ≠ '&' := fun c hc =>
    identChar_ne c '&' (hid c hc) (by decide)
  have h1 : stripTagsF id.length id = id :=
    stripTagsF_no_tag id (fun c hc => identChar_ne c '<' (hid c hc) (by decide)) _
  have h2 := decodeLt_id id hamp
  have h3 := decodeGt_id id hamp
  have h4 := decodeAmp_id id hamp
  have h5 := collapseWs_id id fun c hc => identChar_not_space c (hid c hc)
  simp [cleanInner, h1, h2, h3, h4, h5]

lemma replPair_ident (op cl : Char) (whole id : List Char)
    (h : isValidIdent id = true) :
    replPair op cl whole id = op :: op :: (id ++ [cl, cl]) := by
  simp [replPair, cleanInner_ident id (validIdent_all id h), h]

lemma pairSubn_contiguous (op cl : Char) (id : List Char)
    (hop1 : isPySpace op = false) (hop2 : op ≠ '<')
    (hcl1 : isPySpace cl = false) (hcl2 : cl ≠ '<') (hclid : isIdentChar cl = false)
    (hv : isValidIdent id = true) :
    pairSubnF op cl (op :: op :: (id ++ [cl, cl])).length (op :: op :: (id ++ [cl, cl])) =
      (op :: op :: (id ++ [cl, cl]), 1) := by
  have hm := matchPairAt_contiguous op cl id hop1 hop2 hcl1 hcl2 hclid
    (validIdent_all id hv)
  have hr := replPair_ident op cl (op :: op :: (id ++ [cl, cl])) id hv
  simp [pairSubnF, List.length_cons, hm, hr]

/-- C3: the claim asserts that a second run of the reconstructor returns
the same text with count 0.  An already-contiguous valid placeholder is
matched again by the window pattern on every pass (and rewritten to
itself), so the second pass returns the same text but count 1: concretely,
for t0 = `{{name}}`, (t1, n1) = reconstruct t0 has t1 = t0, and
reconstruct t1 = (t1, 1), not (t1, 0). -/
theorem reconstruct_second_pass_count_nonzero_cex :
    ¬ (_normalize_jinja_curly ((_normalize_jinja_curly
          (String.toList "\x7b\x7bname\x7d\x7d")).1) =
        ((_normalize_jinja_curly (String.toList "\x7b\x7bname\x7d\x7d")).1, 0)) := by
  decide

/-- C3 (amended): running the reconstructor twice is idempotent on the
text, but the second pass re-counts the already-contiguous placeholders
rather than returning 0: for every valid identifier `id`, either family
maps its contiguous placeholder to itself with count 1, so a second pass
on the output of a pass that produced such a placeholder returns the same
text with a count of 1 per placeholder, not 0. -/
theorem reconstruct_second_pass_same_text_count_one (id : List Char)
    (h : isValidIdent id = true) :
    _normalize_jinja_curly ('{' :: '{' :: (id ++ ['}', '}'])) =
      ('{' :: '{' :: (id ++ ['}', '}']), 1) ∧
    _normalize_jinja_square ('[' :: '[' :: (id ++ [']', ']'])) =
      ('[' :: '[' :: (id ++ [']', ']']), 1) :=
  ⟨pairSubn_contiguous '{' '}' id (by decide) (by decide) (by decide) (by decide)
      (by decide) h,
   pairSubn_contiguous '[' ']' id (by decide) (by decide) (by decide) (by decide)
      (by decide) h⟩

/-- Witness for C3 (amended) at the identifier `name`. -/
theorem reconstruct_second_pass_same_text_count_one_witness :
    _normalize_jinja_curly ('{' :: '{' :: (String.toList "name" ++ ['}', '}'])) =
      ('{' :: '{' :: (String.toList "name" ++ ['}', '}']), 1) ∧
    _normalize_jinja_square ('[' :: '[' :: (String.toList "name" ++ [']', ']'])) =
      ('[' :: '[' :: (String.toList "name" ++ [']', ']']), 1) :=
  reconstruct_second_pass_same_text_count_one (String.toList "name") (by decide)
